import Mathlib

/-!
Verification of the time-advancement engine of
`solvers/HomogeneousBloodFlowSolver/EquationSystems/IncNavierStokes.cpp`.

The C++ source is shallowly embedded: machine doubles are modelled by `ℚ`
(all properties proved are exact-arithmetic properties), arrays by `List`,
and function-scope `static` variables by explicitly threaded state.  Each
definition names the source lines it embeds.
-/

namespace IncNS

/-! ### Sub-step count (`SubStepAdvance`, IncNavierStokes.cpp:743-747) -/

/-- Number of inner sub-steps chosen by `SubStepAdvance`
(IncNavierStokes.cpp:743-745).  The source computes
`nsubsteps = (m_timestep > dt) ? ((int)(m_timestep/dt)+1) : 1;`
followed by `nsubsteps = max(minsubsteps, nsubsteps);`.
The C cast `(int)` truncates toward zero, which for the positive ratio
`m_timestep/dt` is the floor. -/
def subStepCount (outerDt dtInner : ℚ) (minsub : ℕ) : ℕ :=
  let nsubsteps := if dtInner < outerDt then (⌊outerDt / dtInner⌋).toNat + 1 else 1
  max minsub nsubsteps

/-- Inner step size `dt = m_timestep/nsubsteps` (IncNavierStokes.cpp:747). -/
def subStepDt (outerDt dtInner : ℚ) (minsub : ℕ) : ℚ :=
  outerDt / (subStepCount outerDt dtInner minsub : ℚ)

/-! ### Steady-state check (`CalcSteadyState`, IncNavierStokes.cpp:1144-1167) -/

/-- Dot product over the first `n` entries of two coefficient vectors,
as `Vmath::Dot(ncoeffs, x, 1, y, 1)` used at IncNavierStokes.cpp:1156. -/
def dotN (n : ℕ) (xs ys : List ℚ) : ℚ :=
  (List.zipWith (fun a b => a * b) (xs.take n) (ys.take n)).sum

/-- One call of `CalcSteadyState` (IncNavierStokes.cpp:1144-1167).
`coeffs` are the coefficient vectors of all fields, `prevL2` the value of
the function-scope static `previousL2` before the call.  Returns the
convergence flag together with the new value of `previousL2`
(the source overwrites `previousL2 = L2` unconditionally). -/
def calcSteadyState (ncoeffs : ℕ) (tol : ℚ) (coeffs : List (List ℚ)) (prevL2 : ℚ) :
    Bool × ℚ :=
  let L2 := (coeffs.map (fun c => dotN ncoeffs c c)).sum
  (decide (|L2 - prevL2| < (ncoeffs : ℚ) * tol), L2)

/-! ### History buffer rotation (`SubStepSaveFields`, IncNavierStokes.cpp:676-722) -/

/-- One call of `SubStepSaveFields` for a single velocity component
(the source performs the identical rotation independently for each of the
`nvel` components, interleaved in `m_previousVelFields`;
IncNavierStokes.cpp:686-718).  The handle rotation moves every block up by
one, the current snapshot is copied into block 0, and on step 0 the
snapshot is additionally replicated into every remaining block. -/
def subStepSaveFields {α : Type} (nstep : ℕ) (snap : α) (b : List α) : List α :=
  match b with
  | [] => []
  | _ :: _ =>
      let rotated := snap :: b.dropLast
      if nstep = 0 then rotated.map (fun _ => snap) else rotated

/-- Sequence of `SubStepSaveFields` calls as issued by `AdvanceInTime`
(IncNavierStokes.cpp:395): the call at outer step `n` receives step index
`n` and the current velocity snapshot. -/
def runSaveFields {α : Type} : ℕ → List α → List α → List α
  | _, [], b => b
  | n, s :: rest, b => runSaveFields (n + 1) rest (subStepSaveFields n s b)

theorem subStepSaveFields_length {α : Type} (nstep : ℕ) (snap : α) (b : List α) :
    (subStepSaveFields nstep snap b).length = b.length := by
  cases b with
  | nil => rfl
  | cons x xs =>
      simp only [subStepSaveFields]
      split <;> simp [List.length_dropLast]

theorem subStepSaveFields_zero {α : Type} (snap : α) (b : List α) (hb : b ≠ []) :
    subStepSaveFields 0 snap b = List.replicate b.length snap := by
  cases b with
  | nil => exact absurd rfl hb
  | cons x xs =>
      simp only [subStepSaveFields, if_pos rfl]
      simp [List.map_const, List.length_dropLast, List.replicate_succ]

theorem subStepSaveFields_pos {α : Type} (nstep : ℕ) (snap : α) (b : List α)
    (hb : b ≠ []) (hn : nstep ≠ 0) :
    subStepSaveFields nstep snap b = snap :: b.dropLast := by
  cases b with
  | nil => exact absurd rfl hb
  | cons x xs => simp [subStepSaveFields, hn]

theorem take_append_cons_dropLast {α : Type} (X : List α) (s : α) (b : List α)
    (hb : b ≠ []) :
    (X ++ (s :: b.dropLast)).take b.length = (X ++ (s :: b)).take b.length := by
  rw [List.take_append_eq_append_take, List.take_append_eq_append_take]
  congr 1
  have h1 : s :: b.dropLast = (s :: b).take b.length := by
    cases b with
    | nil => exact absurd rfl hb
    | cons x xs =>
        simp only [List.length_cons, List.take_succ_cons]
        rw [List.dropLast_eq_take]
        simp
  rw [h1, List.take_take, inf_of_le_left (Nat.sub_le _ _)]

/-- Closed form of a run of saves that all carry a nonzero step index:
the buffer becomes the reversed snapshot list padded with the old buffer,
truncated to the buffer length. -/
theorem runSaveFields_pos {α : Type} (snaps : List α) :
    ∀ (n : ℕ) (b : List α), n ≠ 0 → b ≠ [] →
      runSaveFields n snaps b = (snaps.reverse ++ b).take b.length := by
  induction snaps with
  | nil => intro n b _ _; simp [runSaveFields]
  | cons s rest ih =>
      intro n b hn hb
      have hb' : subStepSaveFields n s b = s :: b.dropLast :=
        subStepSaveFields_pos n s b hb hn
      have hlen : (s :: b.dropLast).length = b.length := by
        cases b with
        | nil => exact absurd rfl hb
        | cons x xs => simp [List.length_dropLast]
      have hne : (s :: b.dropLast) ≠ [] := by simp
      calc runSaveFields n (s :: rest) b
          = runSaveFields (n + 1) rest (subStepSaveFields n s b) := rfl
        _ = (rest.reverse ++ (s :: b.dropLast)).take b.length := by
              rw [hb', ih (n + 1) (s :: b.dropLast) (Nat.succ_ne_zero n) hne, hlen]
        _ = ((s :: rest).reverse ++ b).take b.length := by
              rw [List.reverse_cons, List.append_assoc,
                take_append_cons_dropLast _ _ _ hb]
              rfl

/-- C5: `SubStepSaveFields` rotates the history buffer so the newest snapshot
occupies slot 0 and older entries shift up; on step index 0 the snapshot is
replicated into all `L` slots, so after the first save all `L` slots equal
that snapshot; and after `k ≥ L` saves (the run starting at step index 0),
slot `i` holds the `(k - i)`-th saved snapshot, i.e. the snapshot from `i`
saves before the newest (`snaps.getD (k - 1 - i)` in 0-based indexing). -/
theorem C5_historyBuffer {α : Type} (snaps b : List α) (d : α) (hb : b ≠ []) :
    (∀ s : α, subStepSaveFields 0 s b = List.replicate b.length s) ∧
    (∀ i, i < b.length → b.length ≤ snaps.length →
      (runSaveFields 0 snaps b).getD i d = snaps.getD (snaps.length - 1 - i) d) := by
  constructor
  · exact fun s => subStepSaveFields_zero s b hb
  · intro i hi hk
    cases snaps with
    | nil =>
        exfalso
        have := List.length_pos.mpr hb
        simp only [List.length_nil] at hk
        omega
    | cons s rest =>
        have hL1 : 0 < b.length := List.length_pos.mpr hb
        have hrep : (List.replicate b.length s) ≠ [] := by
          intro h
          have := congrArg List.length h
          simp only [List.length_replicate, List.length_nil] at this
          omega
        have h0 : runSaveFields 0 (s :: rest) b
            = (rest.reverse ++ List.replicate b.length s).take b.length := by
          show runSaveFields (0 + 1) rest (subStepSaveFields 0 s b) = _
          rw [subStepSaveFields_zero s b hb,
            runSaveFields_pos rest (0 + 1) _ one_ne_zero hrep,
            List.length_replicate]
        rw [h0, List.getD_eq_getElem?_getD, List.getElem?_take, if_pos hi,
          List.getElem?_append]
        simp only [List.length_reverse, List.length_cons]
        by_cases hlt : i < rest.length
        · rw [if_pos hlt, List.getElem?_reverse hlt]
          have hidx : rest.length + 1 - 1 - i = (rest.length - 1 - i) + 1 := by omega
          rw [hidx, List.getD_cons_succ, List.getD_eq_getElem?_getD]
        · rw [if_neg hlt]
          have hkL : i ≤ rest.length := by
            simp only [List.length_cons] at hk
            omega
          have hieq : i = rest.length := by omega
          have hidx : rest.length + 1 - 1 - i = 0 := by omega
          rw [hidx, hieq, Nat.sub_self, List.getElem?_replicate, if_pos hL1]
          rfl

/-- C5 witness: a concrete run of 3 saves on a 2-slot buffer.  After the
first save both slots hold snapshot 10; after 3 saves slot 0 holds the
newest snapshot (save 3) and slot 1 the one before it (save 2). -/
theorem C5_historyBuffer_witness :
    subStepSaveFields 0 (10 : ℕ) [0, 0] = [10, 10] ∧
    (runSaveFields 0 [10, 20, 30] [0, 0]).getD 0 99 = 30 ∧
    (runSaveFields 0 [10, 20, 30] [0, 0]).getD 1 99 = 20 := by
  have h := C5_historyBuffer [10, 20, 30] [0, 0] 99 (by decide)
  refine ⟨?_, ?_, ?_⟩
  · have := h.1 10
    simpa using this
  · have := h.2 0 (by decide) (by decide)
    simpa using this
  · have := h.2 1 (by decide) (by decide)
    simpa using this

theorem ceil_eq_floor_succ_of_not_int (x : ℚ) (h : ¬ ∃ k : ℤ, x = (k : ℚ)) :
    (⌈x⌉ : ℤ) = ⌊x⌋ + 1 := by
  have hlt : (⌊x⌋ : ℚ) < x := by
    rcases lt_or_eq_of_le (Int.floor_le x) with hlt | heq
    · exact hlt
    · exact absurd ⟨⌊x⌋, heq.symm⟩ h
  rw [Int.ceil_eq_iff]
  constructor
  · push_cast; linarith
  · push_cast
    exact (Int.lt_floor_add_one x).le

/-- C1 counterexample: the claim states the sub-step count equals
`ceil(outerDt/dtInner)` whenever `outerDt > dtInner`, but at
`outerDt = 1`, `dtInner = 1/2` (an exact integer ratio) the source's
`(int)(m_timestep/dt) + 1` yields 3 while the ceiling is 2. -/
theorem C1_subStepCount_cex :
    subStepCount 1 (1/2) 0 = 3 ∧ (⌈(1 : ℚ) / (1/2)⌉).toNat = 2 ∧
    subStepCount 1 (1/2) 0 ≠ (⌈(1 : ℚ) / (1/2)⌉).toNat := by
  have h1 : subStepCount 1 (1/2) 0 = 3 := by
    simp only [subStepCount]
    norm_num [Int.floor_eq_iff]
    decide
  have h2 : (⌈(1 : ℚ) / (1/2)⌉).toNat = 2 := by
    norm_num [Int.ceil_eq_iff]
    decide
  exact ⟨h1, h2, by rw [h1, h2]; omega⟩

/-- C1 (amended): for `outerDt > 0` and `dtInner > 0` the sub-step count of
`SubStepAdvance` (IncNavierStokes.cpp:743-747) equals
`floor(outerDt/dtInner) + 1` when `outerDt > dtInner` (which coincides with
`ceil(outerDt/dtInner)` whenever the ratio is not an exact integer) and `1`
otherwise, raised to the configured minimum; the inner step is
`outerDt / nsub`; and the three quoted examples hold. -/
theorem C1_subStepCount (outerDt dtInner : ℚ) (minsub : ℕ)
    (h1 : 0 < outerDt) (h2 : 0 < dtInner) :
    (dtInner < outerDt →
      subStepCount outerDt dtInner minsub
        = max minsub ((⌊outerDt / dtInner⌋).toNat + 1)) ∧
    (¬ dtInner < outerDt → subStepCount outerDt dtInner minsub = max minsub 1) ∧
    (dtInner < outerDt → (¬ ∃ k : ℤ, outerDt / dtInner = (k : ℚ)) →
      subStepCount outerDt dtInner minsub
        = max minsub (⌈outerDt / dtInner⌉).toNat) ∧
    subStepDt outerDt dtInner minsub
      = outerDt / (subStepCount outerDt dtInner minsub : ℚ) ∧
    subStepCount 1 (3/10) 0 = 4 ∧ subStepCount 1 2 0 = 1 ∧
    subStepCount 1 2 5 = 5 := by
  refine ⟨fun h => by simp [subStepCount, if_pos h],
    fun h => by simp [subStepCount, if_neg h], ?_, rfl, ?_, ?_, ?_⟩
  · intro h hnint
    have hceil : (⌈outerDt / dtInner⌉ : ℤ) = ⌊outerDt / dtInner⌋ + 1 :=
      ceil_eq_floor_succ_of_not_int _ hnint
    have hfl : (0 : ℤ) ≤ ⌊outerDt / dtInner⌋ := by
      apply Int.floor_nonneg.mpr
      positivity
    simp only [subStepCount, if_pos h, hceil]
    congr 1
    omega
  · simp only [subStepCount]
    norm_num [Int.floor_eq_iff]
    decide
  · simp only [subStepCount]
    norm_num
  · simp only [subStepCount]
    norm_num

/-- C1 witness: the amended theorem applied at `outerDt = 1`,
`dtInner = 3/10`, `minsub = 0`. -/
theorem C1_subStepCount_witness :
    subStepCount 1 (3/10) 0 = max 0 ((⌊(1 : ℚ) / (3/10)⌋).toNat + 1) :=
  (C1_subStepCount 1 (3/10) 0 (by norm_num) (by norm_num)).1 (by norm_num)

/-- C3: each call of `CalcSteadyState` computes `L2` as the sum over all
fields of the self dot-product of their coefficient vectors, returns
`true` iff `|L2 - previousL2| < ncoeffs * tol`, unconditionally overwrites
`previousL2` with `L2`; hence a second consecutive call on the same
coefficients returns `true` (for positive `ncoeffs * tol`), and a first
call (`previousL2 = 0`) with `ncoeffs * tol ≤ |L2|` returns `false`. -/
theorem C3_calcSteadyState (ncoeffs : ℕ) (tol : ℚ) (coeffs : List (List ℚ))
    (prevL2 : ℚ) :
    ((calcSteadyState ncoeffs tol coeffs prevL2).1 = true ↔
      |(coeffs.map (fun c => dotN ncoeffs c c)).sum - prevL2|
        < (ncoeffs : ℚ) * tol) ∧
    (calcSteadyState ncoeffs tol coeffs prevL2).2
      = (coeffs.map (fun c => dotN ncoeffs c c)).sum ∧
    (0 < (ncoeffs : ℚ) * tol →
      (calcSteadyState ncoeffs tol coeffs
        ((calcSteadyState ncoeffs tol coeffs prevL2).2)).1 = true) ∧
    ((ncoeffs : ℚ) * tol ≤ |(coeffs.map (fun c => dotN ncoeffs c c)).sum| →
      (calcSteadyState ncoeffs tol coeffs 0).1 = false) := by
  refine ⟨by simp [calcSteadyState], rfl, ?_, ?_⟩
  · intro hpos
    simp [calcSteadyState, hpos]
  · intro hle
    simp only [calcSteadyState, sub_zero, decide_eq_false_iff_not, not_lt]
    exact hle

/-- C3 witness: with one field whose single coefficient is 2 and
`ncoeffs = tol = 1`, the first call returns `false` and the second
consecutive call returns `true`. -/
theorem C3_calcSteadyState_witness :
    (calcSteadyState 1 1 [[2]] ((calcSteadyState 1 1 [[2]] 0).2)).1 = true ∧
    (calcSteadyState 1 1 [[2]] 0).1 = false := by
  have h := C3_calcSteadyState 1 1 [[2]] 0
  exact ⟨h.2.2.1 (by norm_num), h.2.2.2 (by norm_num [dotN])⟩

/-! ### Checkpoint dumps (`AdvanceInTime`, IncNavierStokes.cpp:452-484) -/

/-- Checkpoint trigger of `AdvanceInTime` (IncNavierStokes.cpp:452):
`if (m_checksteps && n && (!((n+1) % m_checksteps)))`. -/
def checkpointTrigger (checksteps n : ℕ) : Bool :=
  checksteps != 0 && n != 0 && (n + 1) % checksteps == 0

/-- Field-level actions performed while writing one checkpoint. -/
inductive ChkEvent : Type
  | toPhysicalSpace : ChkEvent
  | writeCheckpoint : ℕ → ChkEvent
  | toWaveSpace : ChkEvent
  | setPhysFromFields : ChkEvent
  deriving DecidableEq

/-- Events of one checkpoint dump (IncNavierStokes.cpp:457-483): in the
homogeneous/Fourier case every field is back-transformed to physical space
(`SetWaveSpace(false)`, `BwdTrans`, `SetPhysState(true)`), checkpoint
`nchk+1` is written, and every field is transformed back to wave space;
otherwise the integrated physical values are installed and the checkpoint
is written. -/
def checkpointEvents (homog : Bool) (nfields nchk : ℕ) : List ChkEvent :=
  if homog then
    List.replicate nfields ChkEvent.toPhysicalSpace
      ++ (ChkEvent.writeCheckpoint (nchk + 1)
          :: List.replicate nfields ChkEvent.toWaveSpace)
  else
    List.replicate nfields ChkEvent.setPhysFromFields
      ++ [ChkEvent.writeCheckpoint (nchk + 1)]

/-- Checkpoint dumps of one advance run of `nsteps` outer steps, starting
with checkpoint counter value `nchk0` (the function-scope static `nchk`,
IncNavierStokes.cpp:304): returns the `(step, sequence-number)` pairs of
the dumps written, together with the final counter value. -/
def runCheckpoints (checksteps nsteps nchk0 : ℕ) : List (ℕ × ℕ) × ℕ :=
  (List.range nsteps).foldl
    (fun st n =>
      if checkpointTrigger checksteps n then (st.1 ++ [(n, st.2 + 1)], st.2 + 1)
      else st)
    ([], nchk0)

theorem runCheckpoints_succ (cs ns k : ℕ) :
    runCheckpoints cs (ns + 1) k
      = (if checkpointTrigger cs ns
         then ((runCheckpoints cs ns k).1 ++ [(ns, (runCheckpoints cs ns k).2 + 1)],
               (runCheckpoints cs ns k).2 + 1)
         else runCheckpoints cs ns k) := by
  simp [runCheckpoints, List.range_succ]

/-- Starting the run with counter `k` shifts every sequence number and the
final counter by `k` relative to a run started at 0. -/
theorem runCheckpoints_shift (cs ns k : ℕ) :
    (runCheckpoints cs ns k).1
      = (runCheckpoints cs ns 0).1.map (fun p => (p.1, p.2 + k)) ∧
    (runCheckpoints cs ns k).2 = (runCheckpoints cs ns 0).2 + k := by
  induction ns with
  | zero => simp [runCheckpoints]
  | succ n ih =>
      rw [runCheckpoints_succ, runCheckpoints_succ]
      by_cases h : checkpointTrigger cs n
      · rw [if_pos h, if_pos h]
        refine ⟨?_, by rw [ih.2]; omega⟩
        simp only [List.map_append, ih.1, List.map_cons, List.map_nil]
        congr 3
        rw [ih.2]
        omega
      · rw [if_neg h, if_neg h]
        exact ih

theorem runCheckpoints_count (cs ns k : ℕ) :
    (runCheckpoints cs ns k).2 = k + (runCheckpoints cs ns k).1.length := by
  induction ns with
  | zero => simp [runCheckpoints]
  | succ n ih =>
      rw [runCheckpoints_succ]
      by_cases h : checkpointTrigger cs n
      · rw [if_pos h]
        simp only [List.length_append, List.length_cons, List.length_nil]
        omega
      · rw [if_neg h]; exact ih

/-- Sequence numbers of the dumps of a run started at counter `k` are
`k+1, k+2, ...` in order. -/
theorem runCheckpoints_seq (cs ns k : ℕ) :
    (runCheckpoints cs ns k).1.map Prod.snd
      = List.range' (k + 1) (runCheckpoints cs ns k).1.length := by
  induction ns with
  | zero => simp [runCheckpoints]
  | succ n ih =>
      rw [runCheckpoints_succ]
      by_cases h : checkpointTrigger cs n
      · rw [if_pos h]
        simp only [List.map_append, List.map_cons, List.map_nil, ih,
          List.length_append, List.length_cons, List.length_nil]
        have hcnt := runCheckpoints_count cs n k
        rw [show (runCheckpoints cs n k).1.length + (0 + 1)
            = (runCheckpoints cs n k).1.length + 1 by omega,
          List.range'_concat]
        congr 2
        omega
      · rw [if_neg h]; exact ih

/-- C7: in a run of `nsteps` outer steps a checkpoint is written at step `n`
exactly when `checkInterval > 0`, `n > 0` and `(n+1) % checkInterval = 0`;
sequence numbers increment from 1; 10 steps with interval 5 give exactly the
two checkpoints (step 4, seq 1) and (step 9, seq 2); and in the
homogeneous/Fourier case the dump is bracketed by a transform to physical
space before and back to wave space after. -/
theorem C7_checkpointSchedule :
    runCheckpoints 5 10 0 = ([(4, 1), (9, 2)], 2) ∧
    (∀ checksteps n : ℕ, checkpointTrigger checksteps n = true ↔
      0 < checksteps ∧ 0 < n ∧ (n + 1) % checksteps = 0) ∧
    (∀ cs ns : ℕ, (runCheckpoints cs ns 0).1.map Prod.snd
      = List.range' 1 (runCheckpoints cs ns 0).1.length) ∧
    (∀ nfields nchk : ℕ, checkpointEvents true nfields nchk
      = List.replicate nfields ChkEvent.toPhysicalSpace
          ++ (ChkEvent.writeCheckpoint (nchk + 1)
              :: List.replicate nfields ChkEvent.toWaveSpace)) := by
  refine ⟨by decide, ?_, fun cs ns => runCheckpoints_seq cs ns 0, fun _ _ => rfl⟩
  intro cs n
  simp [checkpointTrigger, Nat.pos_iff_ne_zero, and_assoc]

/-! ### Function-scope statics persisting across advance runs -/

/-- The static call counter of `SubStepAdvance`
(IncNavierStokes.cpp:734-735): `static int ncalls = 1;` and each call
computes `nint = min(ncalls++, m_intSteps)`.  `runSubStepCalls intSteps k
nc` performs `k` calls starting from counter value `nc`, returning the
list of `nint` values used and the final counter. -/
def runSubStepCalls (intSteps : ℕ) : ℕ → ℕ → List ℕ × ℕ
  | 0, nc => ([], nc)
  | k + 1, nc =>
      let r := runSubStepCalls intSteps k (nc + 1)
      (min nc intSteps :: r.1, r.2)

theorem runSubStepCalls_final (intSteps : ℕ) :
    ∀ k nc : ℕ, (runSubStepCalls intSteps k nc).2 = nc + k := by
  intro k
  induction k with
  | zero => intro nc; rfl
  | succ m ih =>
      intro nc
      simp only [runSubStepCalls, ih (nc + 1)]
      omega

/-- C10: the function-scope statics `nchk` (IncNavierStokes.cpp:304),
`ncalls` (IncNavierStokes.cpp:734) and `previousL2`
(IncNavierStokes.cpp:1146) persist across invocations of `AdvanceInTime`.
A second run's checkpoint numbering continues from the first run's final
counter instead of restarting at 1 (two 10-step runs with interval 5 give
seq 3 and 4 in the second run); the sub-step ramp-up counter keeps
counting, so the second run starts at full ramp-up instead of `nint = 1`;
and the first steady-state check of a second run compares against the
previous run's final `L2` (converging immediately on an unchanged state)
rather than against 0. -/
theorem C10_staticsPersistence :
    (∀ cs n1 n2 : ℕ,
      (runCheckpoints cs n2 (runCheckpoints cs n1 0).2).1
        = (runCheckpoints cs n2 0).1.map
            (fun p => (p.1, p.2 + (runCheckpoints cs n1 0).2))) ∧
    (runCheckpoints 5 10 (runCheckpoints 5 10 0).2).1 = [(4, 3), (9, 4)] ∧
    (∀ intSteps k1 k2 nc : ℕ,
      (runSubStepCalls intSteps k2 ((runSubStepCalls intSteps k1 nc).2)).2
        = nc + k1 + k2) ∧
    (runSubStepCalls 2 3 ((runSubStepCalls 2 10 1).2)).1 = [2, 2, 2] ∧
    (runSubStepCalls 2 3 1).1 = [1, 2, 2] ∧
    (calcSteadyState 1 1 [[3]] ((calcSteadyState 1 1 [[3]] 0).2)).1 = true ∧
    (calcSteadyState 1 1 [[3]] 0).1 = false := by
  refine ⟨fun cs n1 n2 => (runCheckpoints_shift cs n2 _).1, by decide,
    ?_, by decide, by decide, by norm_num [calcSteadyState, dotN],
    by norm_num [calcSteadyState, dotN]⟩
  intro intSteps k1 k2 nc
  rw [runSubStepCalls_final, runSubStepCalls_final]

/-! ### Index safety of `SubStepExtrapoloteField` (IncNavierStokes.cpp:986-1020) -/

/-- Indices written into the fixed 4-entry weight array `l`
(IncNavierStokes.cpp:991 and 996-1008): the loop writes `l[i]` for every
`i = 0 .. m_intSteps`. -/
def extrapWeightWrites (intSteps : ℕ) : List ℕ := List.range (intSteps + 1)

/-- Block indices read from `m_previousVelFields`
(IncNavierStokes.cpp:1010-1019): for each velocity component `i < nvel`,
snapshot blocks `j*nvel + i` for `j = 0 .. m_intSteps`. -/
def extrapHistReads (intSteps nvel : ℕ) : List ℕ :=
  (List.range nvel).flatMap
    (fun i => (List.range (intSteps + 1)).map (fun j => j * nvel + i))

/-- C9: every write into the 4-entry weight array stays in bounds exactly
when `m_intSteps ≤ 3`, and every read of `m_previousVelFields` stays in
bounds exactly when the buffer holds at least `(m_intSteps + 1) * nvel`
blocks — one block more than the spec's `L = integrator-order` slots. -/
theorem C9_extrapIndexBounds (intSteps nvel histLen : ℕ) (hnvel : 0 < nvel) :
    ((extrapWeightWrites intSteps).all (fun idx => decide (idx < 4)) = true
      ↔ intSteps ≤ 3) ∧
    ((extrapHistReads intSteps nvel).all (fun idx => decide (idx < histLen)) = true
      ↔ (intSteps + 1) * nvel ≤ histLen) := by
  constructor
  · simp only [List.all_eq_true, decide_eq_true_eq, extrapWeightWrites,
      List.mem_range]
    constructor
    · intro h
      have := h intSteps (Nat.lt_succ_self intSteps)
      omega
    · intro h idx hidx
      omega
  · simp only [List.all_eq_true, decide_eq_true_eq, extrapHistReads,
      List.mem_flatMap, List.mem_map, List.mem_range]
    constructor
    · intro h
      have hmem := h (intSteps * nvel + (nvel - 1))
        ⟨nvel - 1, by omega, intSteps, Nat.lt_succ_self _, rfl⟩
      have hexp : (intSteps + 1) * nvel = intSteps * nvel + nvel := by ring
      omega
    · intro h idx hidx
      obtain ⟨i, hi, j, hj, rfl⟩ := hidx
      have h1 : j * nvel + i < (j + 1) * nvel := by
        have hexp : (j + 1) * nvel = j * nvel + nvel := by ring
        omega
      have h2 : (j + 1) * nvel ≤ (intSteps + 1) * nvel :=
        Nat.mul_le_mul_right nvel (by omega)
      omega

/-- C9 witness: with `m_intSteps = 2`, two velocity components and a
history buffer of `(2+1)*2 = 6` blocks, all accesses are in bounds. -/
theorem C9_extrapIndexBounds_witness :
    (extrapWeightWrites 2).all (fun idx => decide (idx < 4)) = true ∧
    (extrapHistReads 2 2).all (fun idx => decide (idx < 6)) = true := by
  have h := C9_extrapIndexBounds 2 2 6 (by decide)
  exact ⟨h.1.mpr (by decide), h.2.mpr (by decide)⟩

/-! ### CFL stable-step estimator (IncNavierStokes.cpp:1169-1345) -/

/-- Velocity at one quadrature point mapped into reference-element
coordinates of a 2-D element (IncNavierStokes.cpp:1245-1261). -/
def stdVelPoint2D (g0 g1 g2 g3 u v : ℚ) : ℚ × ℚ :=
  (g0 * u + g2 * v, g1 * u + g3 * v)

/-- Squared magnitude of a mapped velocity vector
(IncNavierStokes.cpp:1267 computes `sqrt(s0*s0 + s1*s1)`; the square root
is kept implicit throughout, sqrt being strictly monotone). -/
def magSq (p : ℚ × ℚ) : ℚ := p.1 * p.1 + p.2 * p.2

/-- A 2-D element as consumed by `GetStdVelocity`: deformation flag,
geometric factors (per point for deformed elements, the factors of point 0
otherwise), and the two velocity components per point. -/
structure StdElm where
  deformed : Bool
  gmat : ℕ → ℕ → ℚ
  u : ℕ → ℚ
  v : ℕ → ℚ
  npts : ℕ

/-- Per-element maximum squared reference-space speed
(IncNavierStokes.cpp:1230-1275): `stdV[el]` starts at 0 and is raised to
each point's mapped speed; the source stores the square root of this
value. -/
def stdVelocitySqElm (e : StdElm) : ℚ :=
  (List.range e.npts).foldl
    (fun acc i =>
      let g := fun r => if e.deformed then e.gmat r i else e.gmat r 0
      max acc (magSq (stdVelPoint2D (g 0) (g 1) (g 2) (g 3) (e.u i) (e.v i))))
    0

/-- `GetStdVelocity` guarded by its precondition assertion
(IncNavierStokes.cpp:1210: `ASSERTL0(m_expdim >= 2, "Method not
implemented for 1D")`); per-element values are reported as squared
maxima, see `stdVelocitySqElm`. -/
def getStdVelocitySq (expdim : ℕ) (els : List StdElm) :
    Except String (List ℚ) :=
  if 2 ≤ expdim then Except.ok (els.map stdVelocitySqElm)
  else Except.error "Method not implemented for 1D"

/-- `Vmath::Vmin` over a per-element array (IncNavierStokes.cpp:1202). -/
def vmin : List ℚ → ℚ
  | [] => 0
  | x :: xs => xs.foldl min x

/-- Per-element stable time step (IncNavierStokes.cpp:1197-1199):
`tstep[el] = m_cflSafetyFactor / (stdVelocity[el] * cLambda *
(ExpOrder[el]-1) * (ExpOrder[el]-1))` with `cLambda = 0.2 = 1/5`. -/
def elementTimeStep (cfl sv : ℚ) (order : ℕ) : ℚ :=
  cfl / (sv * (1/5) * ((order : ℚ) - 1) * ((order : ℚ) - 1))

/-- `GetSubstepTimeStep` (IncNavierStokes.cpp:1169-1204): the global
stable step is the minimum of the per-element stable steps. -/
def getSubstepTimeStep (cfl : ℚ) (stdVel : List ℚ) (orders : List ℕ) : ℚ :=
  vmin (List.zipWith (fun sv p => elementTimeStep cfl sv p) stdVel orders)

/-- C8: the stable-step estimation aborts with the descriptive assertion
message exactly when the expansion dimension is below 2, and for dimension
at least 2 the per-element computation runs to completion. -/
theorem C8_dimensionAssert (expdim : ℕ) (els : List StdElm) :
    (expdim < 2 → getStdVelocitySq expdim els
      = Except.error "Method not implemented for 1D") ∧
    (2 ≤ expdim → getStdVelocitySq expdim els
      = Except.ok (els.map stdVelocitySqElm)) := by
  constructor
  · intro h
    rw [getStdVelocitySq, if_neg (by omega)]
  · intro h
    rw [getStdVelocitySq, if_pos h]

/-- C8 witness: dimension 1 aborts, dimension 2 completes. -/
theorem C8_dimensionAssert_witness :
    getStdVelocitySq 1 [] = Except.error "Method not implemented for 1D" ∧
    getStdVelocitySq 2 [] = Except.ok (([] : List StdElm).map stdVelocitySqElm) :=
  ⟨(C8_dimensionAssert 1 []).1 (by omega), (C8_dimensionAssert 2 []).2 (by omega)⟩

theorem foldl_min_map_mul (c : ℚ) (hc : 0 ≤ c) :
    ∀ (xs : List ℚ) (a : ℚ),
      (xs.map (fun x => c * x)).foldl min (c * a) = c * xs.foldl min a := by
  intro xs
  induction xs with
  | nil => intro a; rfl
  | cons y ys ih =>
      intro a
      simp only [List.map_cons, List.foldl_cons]
      rw [← mul_min_of_nonneg _ _ hc, ih]

theorem vmin_map_mul (c : ℚ) (hc : 0 ≤ c) (l : List ℚ) :
    vmin (l.map (fun x => c * x)) = c * vmin l := by
  cases l with
  | nil => simp [vmin]
  | cons x xs => exact foldl_min_map_mul c hc xs x

theorem foldl_min_pos :
    ∀ (xs : List ℚ) (a : ℚ), 0 < a → (∀ x ∈ xs, 0 < x) → 0 < xs.foldl min a := by
  intro xs
  induction xs with
  | nil => intro a ha _; exact ha
  | cons y ys ih =>
      intro a ha h
      simp only [List.foldl_cons]
      exact ih (min a y) (lt_min ha (h y (List.mem_cons_self y ys)))
        (fun x hx => h x (List.mem_cons_of_mem y hx))

theorem vmin_pos (l : List ℚ) (hne : l ≠ []) (h : ∀ x ∈ l, 0 < x) :
    0 < vmin l := by
  cases l with
  | nil => exact absurd rfl hne
  | cons x xs =>
      exact foldl_min_pos xs x (h x (List.mem_cons_self x xs))
        (fun y hy => h y (List.mem_cons_of_mem x hy))

theorem zipWith_self_replicate {α β γ : Type} (f : α → β → γ) (p : β) :
    ∀ l : List α,
      List.zipWith f l (List.replicate l.length p) = l.map (fun x => f x p) := by
  intro l
  induction l with
  | nil => rfl
  | cons x xs ih => simp [List.replicate_succ, ih]

theorem elementTimeStep_pos (cfl sv : ℚ) (p : ℕ) (hcfl : 0 < cfl)
    (hsv : 0 < sv) (hp : 2 ≤ p) :
    0 < elementTimeStep cfl sv p := by
  have hp' : (0 : ℚ) < (p : ℚ) - 1 := by
    have : (2 : ℚ) ≤ (p : ℚ) := by exact_mod_cast hp
    linarith
  exact div_pos hcfl
    (mul_pos (mul_pos (mul_pos hsv (by norm_num)) hp') hp')

theorem elementTimeStep_scale (cfl sv : ℚ) (p1 p2 : ℕ) (hsv : sv ≠ 0)
    (hp1 : 2 ≤ p1) (hp2 : 2 ≤ p2) :
    elementTimeStep cfl sv p2
      = (((p1 : ℚ) - 1) / ((p2 : ℚ) - 1)) ^ 2 * elementTimeStep cfl sv p1 := by
  have h1 : ((p1 : ℚ) - 1) ≠ 0 := by
    have : (2 : ℚ) ≤ (p1 : ℚ) := by exact_mod_cast hp1
    intro hc
    linarith
  have h2 : ((p2 : ℚ) - 1) ≠ 0 := by
    have : (2 : ℚ) ≤ (p2 : ℚ) := by exact_mod_cast hp2
    intro hc
    linarith
  unfold elementTimeStep
  field_simp
  ring

/-- C6: with the per-element maxima of reference-space speed characterized
by `stdVelocitySqElm` (`GetStdVelocity`), the global stable step of
`GetSubstepTimeStep` is positive, and for two otherwise-identical inputs
differing only in a uniform polynomial order `p1 < p2`, the `p2` stable
step equals the `p1` stable step multiplied by `((p1-1)/(p2-1))²` — in
particular it is strictly smaller. -/
theorem C6_substepTimeStep (cfl : ℚ) (sv : List ℚ) (els : List StdElm)
    (p1 p2 : ℕ) (hne : sv ≠ []) (hpos : ∀ x ∈ sv, 0 < x)
    (_hsq : List.Forall₂ (fun s e => s ^ 2 = stdVelocitySqElm e) sv els)
    (hcfl : 0 < cfl) (hp1 : 2 ≤ p1) (hp12 : p1 < p2) :
    0 < getSubstepTimeStep cfl sv (List.replicate sv.length p1) ∧
    getSubstepTimeStep cfl sv (List.replicate sv.length p2)
      = (((p1 : ℚ) - 1) / ((p2 : ℚ) - 1)) ^ 2
        * getSubstepTimeStep cfl sv (List.replicate sv.length p1) ∧
    getSubstepTimeStep cfl sv (List.replicate sv.length p2)
      < getSubstepTimeStep cfl sv (List.replicate sv.length p1) := by
  have hp2 : 2 ≤ p2 := by omega
  have hT : ∀ p : ℕ, getSubstepTimeStep cfl sv (List.replicate sv.length p)
      = vmin (sv.map (fun s => elementTimeStep cfl s p)) := by
    intro p
    rw [getSubstepTimeStep, zipWith_self_replicate]
  have hTpos : 0 < getSubstepTimeStep cfl sv (List.replicate sv.length p1) := by
    rw [hT]
    apply vmin_pos
    · simpa using hne
    · intro x hx
      obtain ⟨s, hs, rfl⟩ := List.mem_map.mp hx
      exact elementTimeStep_pos cfl s p1 hcfl (hpos s hs) hp1
  have hscale : getSubstepTimeStep cfl sv (List.replicate sv.length p2)
      = (((p1 : ℚ) - 1) / ((p2 : ℚ) - 1)) ^ 2
        * getSubstepTimeStep cfl sv (List.replicate sv.length p1) := by
    rw [hT, hT]
    have hmap : sv.map (fun s => elementTimeStep cfl s p2)
        = (sv.map (fun s => elementTimeStep cfl s p1)).map
            (fun x => (((p1 : ℚ) - 1) / ((p2 : ℚ) - 1)) ^ 2 * x) := by
      rw [List.map_map]
      apply List.map_congr_left
      intro s hs
      exact elementTimeStep_scale cfl s p1 p2 (ne_of_gt (hpos s hs)) hp1 hp2
    rw [hmap, vmin_map_mul _ (by positivity)]
  refine ⟨hTpos, hscale, ?_⟩
  rw [hscale]
  have ha : (0 : ℚ) < (p1 : ℚ) - 1 := by
    have : (2 : ℚ) ≤ (p1 : ℚ) := by exact_mod_cast hp1
    linarith
  have hb : (p1 : ℚ) - 1 < (p2 : ℚ) - 1 := by
    have : (p1 : ℚ) < (p2 : ℚ) := by exact_mod_cast hp12
    linarith
  have hc1 : (((p1 : ℚ) - 1) / ((p2 : ℚ) - 1)) ^ 2 < 1 := by
    have hdiv : ((p1 : ℚ) - 1) / ((p2 : ℚ) - 1) < 1 :=
      (div_lt_one (by linarith)).mpr hb
    have hdiv0 : 0 < ((p1 : ℚ) - 1) / ((p2 : ℚ) - 1) :=
      div_pos ha (by linarith)
    nlinarith
  exact mul_lt_of_lt_one_left hTpos hc1

/-- Concrete undeformed 2-D element with one quadrature point, identity
geometric factors and velocity (3,4): its maximum reference-space speed is
5. -/
def testElm : StdElm :=
  { deformed := false
    gmat := fun r _ => if r = 0 then 1 else if r = 3 then 1 else 0
    u := fun _ => 3
    v := fun _ => 4
    npts := 1 }

/-- C6 witness: one element of maximum reference speed 5 (velocity (3,4)),
orders 2 and 3, safety factor 1. -/
theorem C6_substepTimeStep_witness :
    0 < getSubstepTimeStep 1 [5] (List.replicate 1 2) ∧
    getSubstepTimeStep 1 [5] (List.replicate 1 3)
      = (((2 : ℚ) - 1) / ((3 : ℚ) - 1)) ^ 2
        * getSubstepTimeStep 1 [5] (List.replicate 1 2) ∧
    getSubstepTimeStep 1 [5] (List.replicate 1 3)
      < getSubstepTimeStep 1 [5] (List.replicate 1 2) := by
  have hsq : List.Forall₂ (fun s e => s ^ 2 = stdVelocitySqElm e)
      [(5 : ℚ)] [testElm] := by
    refine List.Forall₂.cons ?_ List.Forall₂.nil
    norm_num [stdVelocitySqElm, testElm, stdVelPoint2D, magSq,
      List.range_succ, List.range_zero, max_def]
  have hpos : ∀ x ∈ [(5 : ℚ)], 0 < x := by
    intro x hx
    rw [List.mem_singleton.mp hx]
    norm_num
  exact C6_substepTimeStep 1 [5] [testElm] 2 3 (by simp) hpos hsq
    (by norm_num) (by norm_num) (by norm_num)

/-! ### Secondary (viscoelastic stress) group copy-back
(`AdvanceInTime`, IncNavierStokes.cpp:411-418) -/

/-- One PDE field with its physical-space array, coefficient-space array
and physical-state validity flag (`m_physState`: `true` means the
physical-space representation is up to date). -/
structure NSField where
  phys : List ℚ
  coeffs : List ℚ
  physState : Bool
  deriving DecidableEq

/-- Copy-back of one integrated viscoelastic stress field
(IncNavierStokes.cpp:414-416): `SetPhys(result)`, then
`FwdTrans_IterPerExp(result, UpdateCoeffs())` (the forward transform
`fwdTrans` is an external collaborator), then `SetPhysState(true)`. -/
def viscoStressCopyBack (fwdTrans : List ℚ → List ℚ) (result : List ℚ)
    (_f : NSField) : NSField :=
  { phys := result, coeffs := fwdTrans result, physState := true }

/-- The copy-back loop over all stress fields of the secondary group
(IncNavierStokes.cpp:411-418). -/
def viscoStressUpdate (fwdTrans : List ℚ → List ℚ)
    (results : List (List ℚ)) (flds : List NSField) : List NSField :=
  List.zipWith (viscoStressCopyBack fwdTrans) results flds

/-- What the claim asserts instead: result copied in, coefficient space
valid, physical-space representation marked STALE (`SetPhysState(false)`).
Modelled from the spec for comparison with the source's
`viscoStressCopyBack`. -/
def viscoStressCopyBackSpec (fwdTrans : List ℚ → List ℚ) (result : List ℚ)
    (_f : NSField) : NSField :=
  { phys := result, coeffs := fwdTrans result, physState := false }

/-- C2 counterexample: after the copy-back the source leaves the field
with `physState = true` (physical space marked valid), contradicting the
claim's "physical-space representation stale". -/
theorem C2_copyBack_cex :
    (viscoStressCopyBack id [1] ⟨[0], [0], false⟩).physState = true ∧
    viscoStressCopyBack id [1] ⟨[0], [0], false⟩
      ≠ viscoStressCopyBackSpec id [1] ⟨[0], [0], false⟩ := by
  constructor
  · rfl
  · intro h
    have := congrArg NSField.physState h
    simp [viscoStressCopyBack, viscoStressCopyBackSpec] at this

/-- C2 (amended): on every outer step with a secondary transported
(viscoelastic stress) group, after integrating the group the engine copies
each result into the owning Field's physical array, forward-transforms it
into the coefficient array (making the coefficient-space representation
valid and consistent), and marks the physical-space representation VALID
(`SetPhysState(true)`), not stale. -/
theorem C2_copyBack (fwdTrans : List ℚ → List ℚ) (results : List (List ℚ))
    (flds : List NSField) (i : ℕ)
    (h : i < (viscoStressUpdate fwdTrans results flds).length) :
    ((viscoStressUpdate fwdTrans results flds).get ⟨i, h⟩).phys
        = results.get ⟨i, by
            have := h
            simp only [viscoStressUpdate, List.length_zipWith] at this
            omega⟩ ∧
    ((viscoStressUpdate fwdTrans results flds).get ⟨i, h⟩).coeffs
        = fwdTrans (((viscoStressUpdate fwdTrans results flds).get ⟨i, h⟩).phys) ∧
    ((viscoStressUpdate fwdTrans results flds).get ⟨i, h⟩).physState = true := by
  have hlen : (viscoStressUpdate fwdTrans results flds).length
      = min results.length flds.length := by
    simp [viscoStressUpdate]
  have hget : (viscoStressUpdate fwdTrans results flds).get ⟨i, h⟩
      = viscoStressCopyBack fwdTrans
          (results.get ⟨i, by rw [hlen] at h; omega⟩)
          (flds.get ⟨i, by rw [hlen] at h; omega⟩) := by
    simp [viscoStressUpdate, List.get_eq_getElem, List.getElem_zipWith]
  rw [hget]
  exact ⟨rfl, rfl, rfl⟩

/-- C2 witness: a two-field secondary group with the identity transform. -/
theorem C2_copyBack_witness :
    ((viscoStressUpdate id [[1], [2]] [⟨[0], [0], false⟩, ⟨[0], [0], false⟩]).get
        ⟨0, by decide⟩).phys = [1] ∧
    ((viscoStressUpdate id [[1], [2]] [⟨[0], [0], false⟩, ⟨[0], [0], false⟩]).get
        ⟨0, by decide⟩).physState = true := by
  have h := C2_copyBack id [[1], [2]] [⟨[0], [0], false⟩, ⟨[0], [0], false⟩] 0
    (by decide)
  exact ⟨h.1, h.2.2⟩

/-! ### Lagrange extrapolation (`SubStepExtrapoloteField`,
IncNavierStokes.cpp:986-1020) -/

/-- Lagrange weight `l[i]` as computed by the double loop at
IncNavierStokes.cpp:996-1008: starting from 1, for every `j ≠ i` in
`0 .. ord` (with `ord = m_intSteps`) multiply by `(j*m_timestep + toff)`
and divide by `(j*m_timestep - i*m_timestep)`. -/
def lagrangeWeight (dt toff : ℚ) (ord i : ℕ) : ℚ :=
  (List.range (ord + 1)).foldl
    (fun acc j =>
      if j ≠ i then acc * (((j : ℚ) * dt + toff) / ((j : ℚ) * dt - (i : ℚ) * dt))
      else acc)
    1

/-- Extrapolated advecting-velocity value at one quadrature point
(IncNavierStokes.cpp:1010-1019): `Vmath::Smul` with `l[0]` on history
block 0 followed by `Blas::Daxpy` with `l[j]` on block `j` for
`j = 1 .. ord`; i.e. the weighted sum of the history snapshots. -/
def subStepExtrapolate (dt toff : ℚ) (ord : ℕ) (hist : ℕ → ℚ) : ℚ :=
  (List.range (ord + 1)).foldl
    (fun acc j => acc + lagrangeWeight dt toff ord j * hist j) 0

theorem foldl_guarded_mul (i : ℕ) (w : ℕ → ℚ) :
    ∀ (l : List ℕ) (a : ℚ),
      l.foldl (fun acc j => if j ≠ i then acc * w j else acc) a
        = a * (l.map (fun j => if j ≠ i then w j else 1)).prod := by
  intro l
  induction l with
  | nil => intro a; simp
  | cons x xs ih =>
      intro a
      by_cases hx : x ≠ i
      · simp only [List.foldl_cons, if_pos hx, List.map_cons, List.prod_cons, ih,
          mul_assoc]
      · simp only [List.foldl_cons, if_neg hx, List.map_cons, List.prod_cons, ih,
          one_mul]

theorem foldl_add_weights (g : ℕ → ℚ) :
    ∀ (l : List ℕ) (a : ℚ),
      l.foldl (fun acc j => acc + g j) a = a + (l.map g).sum := by
  intro l
  induction l with
  | nil => intro a; simp
  | cons x xs ih => intro a; simp [ih, add_assoc]

theorem lagrangeWeight_eq_prod (dt toff : ℚ) (ord i : ℕ) :
    lagrangeWeight dt toff ord i
      = ∏ j ∈ (Finset.range (ord + 1)).erase i,
          (((j : ℚ) * dt + toff) / ((j : ℚ) * dt - (i : ℚ) * dt)) := by
  rw [lagrangeWeight, foldl_guarded_mul, one_mul]
  have hbridge : ((List.range (ord + 1)).map
      (fun j => if j ≠ i
        then (((j : ℚ) * dt + toff) / ((j : ℚ) * dt - (i : ℚ) * dt))
        else 1)).prod
      = ∏ j ∈ Finset.range (ord + 1),
          (if j ≠ i
           then (((j : ℚ) * dt + toff) / ((j : ℚ) * dt - (i : ℚ) * dt))
           else 1) := rfl
  have herase : (∏ j ∈ Finset.range (ord + 1),
      (if j ≠ i
       then (((j : ℚ) * dt + toff) / ((j : ℚ) * dt - (i : ℚ) * dt))
       else 1))
      = ∏ j ∈ (Finset.range (ord + 1)).erase i,
          (if j ≠ i
           then (((j : ℚ) * dt + toff) / ((j : ℚ) * dt - (i : ℚ) * dt))
           else 1) :=
    (Finset.prod_erase (Finset.range (ord + 1)) (by simp)).symm
  rw [hbridge, herase]
  apply Finset.prod_congr rfl
  intro j hj
  rw [if_pos (Finset.mem_erase.mp hj).1]

theorem lagrangeWeight_eq_eval_basis (dt toff : ℚ) (ord i : ℕ) :
    lagrangeWeight dt toff ord i
      = Polynomial.eval toff
          (Lagrange.basis (Finset.range (ord + 1)) (fun j => -(j : ℚ) * dt) i) := by
  rw [lagrangeWeight_eq_prod, Lagrange.basis, Polynomial.eval_prod]
  apply Finset.prod_congr rfl
  intro j hj
  simp only [Lagrange.basisDivisor, Polynomial.eval_mul, Polynomial.eval_C,
    Polynomial.eval_sub, Polynomial.eval_X]
  have ha : (j : ℚ) * dt + toff = toff - (-(j : ℚ) * dt) := by ring
  have hb : (j : ℚ) * dt - (i : ℚ) * dt = (-(i : ℚ) * dt) - (-(j : ℚ) * dt) := by
    ring
  rw [ha, hb, div_eq_mul_inv, mul_comm]

theorem subStepExtrapolate_eq_sum (dt toff : ℚ) (ord : ℕ) (hist : ℕ → ℚ) :
    subStepExtrapolate dt toff ord hist
      = ∑ j ∈ Finset.range (ord + 1), lagrangeWeight dt toff ord j * hist j := by
  rw [subStepExtrapolate, foldl_add_weights, zero_add]
  rfl

theorem nodes_injOn (dt : ℚ) (hdt : dt ≠ 0) (s : Finset ℕ) :
    Set.InjOn (fun j : ℕ => -(j : ℚ) * dt) s := by
  intro a _ b _ hab
  simp only at hab
  have h2 : (a : ℚ) = (b : ℚ) := neg_injective (mul_right_cancel₀ hdt hab)
  exact_mod_cast h2

/-- C4: for `outerDt > 0` and any offset `0 ≤ τ < outerDt`, the weights of
`SubStepExtrapoloteField` equal the Lagrange weights
`∏_{j≠i} (j·outerDt + τ) / (j·outerDt − i·outerDt)` over the nodes at
times `0, -outerDt, -2·outerDt, …`, and the weighted sum of history
snapshots reproduces, in exact arithmetic, any history that is polynomial
in time of degree at most `ord` (hence in particular of degree
`< L = m_intSteps`) at time offset `τ`. -/
theorem C4_extrapolation (dt toff : ℚ) (ord : ℕ)
    (hdt : 0 < dt) (_h0 : 0 ≤ toff) (_h1 : toff < dt) :
    (∀ i ∈ Finset.range (ord + 1),
      lagrangeWeight dt toff ord i
        = ∏ j ∈ (Finset.range (ord + 1)).erase i,
            (((j : ℚ) * dt + toff) / ((j : ℚ) * dt - (i : ℚ) * dt))) ∧
    (∀ p : Polynomial ℚ, p.degree < (ord + 1 : ℕ) →
      subStepExtrapolate dt toff ord (fun j => p.eval (-(j : ℚ) * dt))
        = p.eval toff) := by
  refine ⟨fun i _ => lagrangeWeight_eq_prod dt toff ord i, ?_⟩
  intro p hdeg
  have hinj : Set.InjOn (fun j : ℕ => -(j : ℚ) * dt)
      ((Finset.range (ord + 1) : Finset ℕ) : Set ℕ) :=
    nodes_injOn dt (ne_of_gt hdt) _
  have hdeg' : p.degree < (Finset.range (ord + 1)).card := by
    rwa [Finset.card_range]
  have hp := Lagrange.eq_interpolate hinj hdeg'
  have heval := congrArg (Polynomial.eval toff) hp
  rw [Lagrange.interpolate_apply, Polynomial.eval_finset_sum] at heval
  simp only [Polynomial.eval_mul, Polynomial.eval_C] at heval
  rw [subStepExtrapolate_eq_sum, heval]
  apply Finset.sum_congr rfl
  intro j hj
  rw [lagrangeWeight_eq_eval_basis, mul_comm]

/-- C4 witness: with `outerDt = 1`, `τ = 0`, `ord = 1` and the linear
history `p = X`, the extrapolated value is `p(0)`. -/
theorem C4_extrapolation_witness :
    subStepExtrapolate 1 0 1 (fun j => Polynomial.eval (-(j : ℚ) * 1) Polynomial.X)
      = Polynomial.eval 0 (Polynomial.X : Polynomial ℚ) :=
  (C4_extrapolation 1 0 1 (by norm_num) le_rfl (by norm_num)).2 Polynomial.X
    (by rw [Polynomial.degree_X]; exact_mod_cast (by norm_num : (1 : ℕ) < 2))

end IncNS
